import Mathlib

/-!
Verification of the background-refreshed market-data cache implemented in
`backend/data_sources/vci.py` (class `VCIClient`).

The Python code is shallowly embedded:
* JSON/Python values are modelled by the inductive type `PyVal`
  (Python floats are modelled as rationals; the code never relies on
  floating-point rounding, NaN or infinity for the properties below).
* Python `dict`s are modelled as insertion-ordered association lists
  (`Assoc α`) with `dset` (assignment `d[k] = v`: replace in place if the
  key is present, append otherwise) and `dictUpdate` (`d.update(e)`).
* `time.time()` and all network fetch results are passed in as explicit
  parameters, since they are environment inputs.
-/

set_option maxHeartbeats 1000000

namespace VCI

/-! ## Definitions -/

/-- A Python/JSON value as it appears in vendor payloads and caches. -/
inductive PyVal where
  | pnone : PyVal
  | pbool (b : Bool) : PyVal
  | pnum (q : Rat) : PyVal
  | pstr (s : String) : PyVal
  | plist (xs : List PyVal) : PyVal
  | pdict (fields : List (String × PyVal)) : PyVal

/-- Insertion-ordered association list: the model of a Python `dict` with
string keys. -/
abbrev Assoc (α : Type) := List (String × α)

/-- `d.get(k)` returning `none` when the key is absent (first occurrence
wins, as in a well-formed Python dict). -/
def dlookup {α : Type} : Assoc α → String → Option α
  | [], _ => none
  | (k, v) :: rest, key => if k = key then some v else dlookup rest key

/-- `k in d`. -/
def containsKey {α : Type} (d : Assoc α) (k : String) : Bool :=
  (dlookup d k).isSome

/-- `item.get(k)`: Python's `dict.get` returns `None` for a missing key. -/
def dget (d : Assoc PyVal) (k : String) : PyVal :=
  (dlookup d k).getD .pnone

/-- `d[k] = v`: replace the first binding of `k` in place, or append a new
binding at the end (Python dicts preserve the original insertion position
of an updated key). -/
def dset {α : Type} : Assoc α → String → α → Assoc α
  | [], key, v => [(key, v)]
  | (k, w) :: rest, key, v =>
      if k = key then (k, v) :: rest else (k, w) :: dset rest key v

/-- `d.update(e)`: assign each of `e`'s bindings into `d`, in order. -/
def dictUpdate {α : Type} (d e : Assoc α) : Assoc α :=
  e.foldl (fun acc kv => dset acc kv.1 kv.2) d

/-- The keys of an association list. -/
def keys {α : Type} (d : Assoc α) : List String := d.map Prod.fst

/-- Python truthiness (`if x:`): `None`, `False`, `0`, `""`, `[]`, `{}`
are falsy. -/
def truthy : PyVal → Bool
  | .pnone => false
  | .pbool b => b
  | .pnum q => decide (q ≠ 0)
  | .pstr s => !s.isEmpty
  | .plist xs => !xs.isEmpty
  | .pdict d => !d.isEmpty

/-- Python `a or b`: `a` if truthy, else `b`. -/
def pyOr (a b : PyVal) : PyVal := if truthy a then a else b

/-- `x if x is not None else y` on the first argument: the `is None`
alias-fallback pattern used for price/reference lookups. -/
def noneOr (a b : PyVal) : PyVal :=
  match a with
  | .pnone => b
  | v => v

/-- Python `str(x)` as used for history keys. For non-string scalars this
is an approximation of CPython's exact rendering; every theorem below that
depends on a stringified symbol states its hypothesis in terms of this
function. -/
def pyStr : PyVal → String
  | .pnone => "None"
  | .pbool b => cond b "True" "False"
  | .pnum q => toString q
  | .pstr s => s
  | .plist _ => "<list>"
  | .pdict _ => "<dict>"

/-- Python `str.upper()` (ASCII; the allow-list symbols are ASCII). -/
def strUpper (s : String) : String := String.mk (s.data.map Char.toUpper)

/-- Numeric value of a list of decimal digit characters. -/
def digitsVal (cs : List Char) : Nat :=
  cs.foldl (fun n c => n * 10 + (c.toNat - 48)) 0

/-- Parse an unsigned decimal literal (digits with at most one point).
Exotic forms accepted by CPython (exponents, `inf`, `nan`, underscores)
are modelled as parse failures; no claim depends on them. -/
def parseFloatCore (cs : List Char) : Option Rat :=
  let intPart := cs.takeWhile Char.isDigit
  let rest := cs.dropWhile Char.isDigit
  match rest with
  | [] => if intPart.isEmpty then none else some ((digitsVal intPart : Nat) : Rat)
  | '.' :: frac =>
      if frac.all Char.isDigit && !(intPart.isEmpty && frac.isEmpty) then
        some ((digitsVal intPart : Rat) + (digitsVal frac : Rat) / ((10 : Rat) ^ frac.length))
      else none
  | _ => none

/-- Strip leading and trailing whitespace from a character list. -/
def trimChars (cs : List Char) : List Char :=
  (((cs.dropWhile Char.isWhitespace).reverse.dropWhile Char.isWhitespace).reverse)

/-- Parse a signed decimal string, ignoring surrounding whitespace, as
Python's `float(str)` does. -/
def parseFloatString (s : String) : Option Rat :=
  match trimChars s.toList with
  | '+' :: cs => parseFloatCore cs
  | '-' :: cs => (parseFloatCore cs).map (fun q => -q)
  | cs => parseFloatCore cs

/-- Python `float(x)` returning `none` where CPython raises
(`None`, lists, dicts, non-numeric strings). -/
def tryFloat : PyVal → Option Rat
  | .pnum q => some q
  | .pbool b => some (if b then 1 else 0)
  | .pstr s => parseFloatString s
  | _ => none

/-! ### Price cache state and `update_bulk_cache`

`VCIClient._price_cache` maps an uppercase symbol to the raw per-symbol
record (a dict); `VCIClient._last_cache_update` is the wall-clock stamp of
the last successful bulk refresh. -/

/-- The bulk price cache state of `VCIClient`. -/
structure PriceState where
  price_cache : Assoc (Assoc PyVal)
  last_cache_update : Nat

/-- `_fetch_group_prices` result shape: `{item['s']: item for item in data
if 's' in item}` (symbols in vendor payloads are strings). A failed fetch
(timeout, non-200, malformed JSON) yields `{}` — that case is modelled by
passing the empty mapping. -/
def fetch_group_prices (data : List PyVal) : Assoc (Assoc PyVal) :=
  data.foldl
    (fun acc it =>
      match it with
      | .pdict d =>
          match dlookup d "s" with
          | some (.pstr sym) => dset acc sym d
          | _ => acc
      | _ => acc)
    []

/-- The merged mapping built by `update_bulk_cache`: `new_cache = {}` then
`new_cache.update(res)` for the three group results, which
`ThreadPoolExecutor.map` yields in the fixed submission order
HOSE, HNX, UPCOM. -/
def mergeGroups (hose hnx upcom : Assoc (Assoc PyVal)) : Assoc (Assoc PyVal) :=
  dictUpdate (dictUpdate (dictUpdate [] hose) hnx) upcom

/-- `update_bulk_cache`, with the three group fetch results and the clock
passed as parameters: if the merged mapping is non-empty it replaces the
whole cache and stamps the time, otherwise the state is left untouched. -/
def update_bulk_cache (s : PriceState) (now : Nat)
    (hose hnx upcom : Assoc (Assoc PyVal)) : PriceState :=
  let new_cache := mergeGroups hose hnx upcom
  if new_cache.isEmpty then s
  else { price_cache := new_cache, last_cache_update := now }

/-! ### Index cache state and `_update_indices_cache` -/

/-- `VCIClient._HISTORY_SIZE`. -/
def HISTORY_SIZE : Nat := 30

/-- The index cache state of `VCIClient`: snapshot list, freshness stamp,
source tag and the per-symbol sparkline history buffers. -/
structure IndicesState where
  indices_cache : List (Assoc PyVal)
  indices_last_update : Nat
  indices_source : String
  indices_history : Assoc (List Rat)

/-- The class-level initial state: `[]`, `0`, `'EMPTY'`, `{}`. -/
def initialIndicesState : IndicesState := ⟨[], 0, "EMPTY", []⟩

/-- `history.append(fv)` followed by the cap: truncate to the last 30
entries when the buffer exceeds 30. -/
def bufStep (b : List Rat) (v : Rat) : List Rat :=
  let h2 := b ++ [v]
  if HISTORY_SIZE < h2.length then h2.drop (h2.length - HISTORY_SIZE) else h2

/-- One iteration of the history loop in `_update_indices_cache`: skip the
item when its symbol is falsy or its price is `None` or fails `float()`;
otherwise append the parsed price to the symbol's buffer and truncate the
buffer to its last 30 entries when it exceeds 30. -/
def histStep (hist : Assoc (List Rat)) (item : Assoc PyVal) : Assoc (List Rat) :=
  if !truthy (dget item "symbol") then hist
  else
    match dget item "price" with
    | .pnone => hist
    | v =>
        match tryFloat v with
        | none => hist
        | some fv =>
            dset hist (pyStr (dget item "symbol"))
              (bufStep ((dlookup hist (pyStr (dget item "symbol"))).getD []) fv)

/-- `_update_indices_cache(items, source)` with the clock passed in: a
no-op on an empty items list, otherwise replaces the snapshot, stamps
freshness and source, and runs the history loop. -/
def update_indices_cache (s : IndicesState) (items : List (Assoc PyVal))
    (source : String) (now : Nat) : IndicesState :=
  if items.isEmpty then s
  else
    { indices_cache := items
      indices_last_update := now
      indices_source := source
      indices_history := items.foldl histStep s.indices_history }

/-- A sequence of calls to `_update_indices_cache`, each with its items,
source tag and clock value. -/
def applyIndicesUpdates (s : IndicesState)
    (us : List (List (Assoc PyVal) × String × Nat)) : IndicesState :=
  us.foldl (fun st u => update_indices_cache st u.1 u.2.1 u.2.2) s

/-- The single item `{'symbol': s, 'price': v}`. -/
def mkIndexItem (s : String) (v : Rat) : Assoc PyVal :=
  [("symbol", .pstr s), ("price", .pnum v)]

/-- All buffers of the history map are within the cap. -/
def histBounded (h : Assoc (List Rat)) : Prop :=
  ∀ p ∈ h, (Prod.snd p).length ≤ HISTORY_SIZE

/-! ### Index payload normalization and extraction -/

/-- `VCIClient.INDEX_SYMBOLS`, the fixed 5-symbol allow-list. -/
def INDEX_SYMBOLS : List String :=
  ["VNINDEX", "VN30", "HNXIndex", "HNX30", "HNXUpcomIndex"]

/-- The `or`-chain of symbol key aliases in `_normalize_index_item`. -/
def resolvedIndexSymbol (item : Assoc PyVal) : PyVal :=
  pyOr (dget item "symbol") (pyOr (dget item "Symbol") (pyOr (dget item "s")
    (pyOr (dget item "index") (pyOr (dget item "Index")
      (pyOr (dget item "code") (dget item "Code"))))))

/-- The `is None` fallback chain for the raw price. -/
def priceRawOf (item : Assoc PyVal) : PyVal :=
  noneOr (dget item "price") (noneOr (dget item "Price")
    (noneOr (dget item "c") (dget item "Index")))

/-- The `is None` fallback chain for the raw reference price. -/
def refRawOf (item : Assoc PyVal) : PyVal :=
  noneOr (dget item "refPrice") (noneOr (dget item "RefPrice")
    (noneOr (dget item "ref") (dget item "PrevIndex")))

/-- `float(x) if x is not None else 0.0`, inside `try/except` that
collapses failures to `0.0`. -/
def coerceFloat : PyVal → Rat
  | .pnone => 0
  | v => (tryFloat v).getD 0

/-- `_normalize_index_item`: resolve the symbol through the alias chain,
reject falsy symbols and symbols outside the (upper-cased) allow-list,
then return a copy of the item with `symbol`, `price`, `refPrice`
overwritten by the normalized values. -/
def normalize_index_item (item : Assoc PyVal) : Option (Assoc PyVal) :=
  if !truthy (resolvedIndexSymbol item) then none
  else if strUpper (pyStr (resolvedIndexSymbol item)) ∈ INDEX_SYMBOLS.map strUpper then
    some (dset (dset (dset item "symbol" (.pstr (strUpper (pyStr (resolvedIndexSymbol item)))))
      "price" (.pnum (coerceFloat (priceRawOf item))))
      "refPrice" (.pnum (coerceFloat (refRawOf item))))
  else none

/-- The nested-container keys `_extract_index_items_from_payload` descends
into, in order. -/
def PAYLOAD_KEYS : List String :=
  ["data", "Data", "payload", "Payload", "items", "Items", "result", "Result"]

/-- The recursive `collect` of `_extract_index_items_from_payload`: walk
lists elementwise; for a dict, first try to normalize it as an index
record, then recurse into the values of the known container keys. -/
def collectVal : PyVal → List (Assoc PyVal)
  | .plist xs => xs.attach.flatMap (fun x => collectVal x.1)
  | .pdict d =>
      (match normalize_index_item d with
        | some n => [n]
        | none => []) ++
      PAYLOAD_KEYS.flatMap (fun k =>
        match h : dlookup d k with
        | some v => collectVal v
        | none => [])
  | _ => []
termination_by v => sizeOf v
decreasing_by
  · have hm := List.sizeOf_lt_of_mem x.2
    simp only [PyVal.plist.sizeOf_spec]
    omega
  · have key : ∀ (d : List (String × PyVal)) (k : String) (v : PyVal),
        dlookup d k = some v → sizeOf v < sizeOf d := by
      intro d
      induction d with
      | nil => intro k v hv; simp [dlookup] at hv
      | cons hd tl ih =>
          intro k v hv
          obtain ⟨k₀, w⟩ := hd
          by_cases h0 : k₀ = k
          · subst h0
            simp [dlookup] at hv
            subst hv
            simp
            omega
          · simp [dlookup, h0] at hv
            have := ih k v hv
            simp
            omega
    have := key d k v h
    simp only [PyVal.pdict.sizeOf_spec]
    omega

/-- The de-duplication key used by `_extract_index_items_from_payload`:
`str(item.get('symbol')).upper()`. -/
def symKeyOf (it : Assoc PyVal) : String := strUpper (pyStr (dget it "symbol"))

/-- The `by_symbol` dict built from the candidates. -/
def insertBySym (acc : Assoc (Assoc PyVal)) (xs : List (Assoc PyVal)) :
    Assoc (Assoc PyVal) :=
  xs.foldl (fun a x => dset a (symKeyOf x) x) acc

/-- `_extract_index_items_from_payload`: collect candidates, de-duplicate
by symbol (last occurrence wins, key keeps its first-insertion position),
return `list(by_symbol.values())`. -/
def extract_index_items (payload : PyVal) : List (Assoc PyVal) :=
  (insertBySym [] (collectVal payload)).map Prod.snd

/-- The last element of a list satisfying `p`. -/
def lastWith {α : Type} (p : α → Bool) (l : List α) : Option α :=
  l.foldl (fun acc x => if p x then some x else acc) none

/-- A sequence of payload deliveries (REST poll or push), each going
through `_extract_index_items_from_payload` then `_update_indices_cache`. -/
def applyPayloadUpdates (s : IndicesState) (ps : List (PyVal × String × Nat)) :
    IndicesState :=
  ps.foldl (fun st p => update_indices_cache st (extract_index_items p.1) p.2.1 p.2.2) s

/-! ### `get_price_detail`, `get_price`, `get_multiple_prices` -/

/-- The cache-hit normalization of `get_price_detail`: map the vendor's
short field codes to descriptive names, coercing each through
`float(item.get(k) or ... or 0)`. A `none` result models the `float()`
call raising (non-numeric truthy field). -/
def normalizeCacheHit (item : Assoc PyVal) : Option (Assoc PyVal) := do
  let price ← tryFloat (pyOr (dget item "c") (pyOr (dget item "ref")
    (pyOr (dget item "op") (.pnum 0))))
  let ref_price ← tryFloat (pyOr (dget item "ref") (.pnum 0))
  let ceiling ← tryFloat (pyOr (dget item "cei") (.pnum 0))
  let floor_p ← tryFloat (pyOr (dget item "flo") (.pnum 0))
  let open_p ← tryFloat (pyOr (dget item "op") (.pnum 0))
  let high ← tryFloat (pyOr (dget item "h") (.pnum 0))
  let low ← tryFloat (pyOr (dget item "l") (.pnum 0))
  let volume ← tryFloat (pyOr (dget item "vo") (.pnum 0))
  let value ← tryFloat (pyOr (dget item "va") (.pnum 0))
  some [("symbol", dget item "s"), ("price", .pnum price),
    ("ref_price", .pnum ref_price), ("ceiling", .pnum ceiling),
    ("floor", .pnum floor_p), ("open", .pnum open_p), ("high", .pnum high),
    ("low", .pnum low), ("volume", .pnum volume), ("value", .pnum value),
    ("source", .pstr "VCI_RAM")]

/-- The direct-fallback normalization of `get_price_detail` (fewer
fields; note the price chain here is `c or ref or 0`, with no `op`). -/
def normalizeDirect (it : Assoc PyVal) : Option (Assoc PyVal) := do
  let price ← tryFloat (pyOr (dget it "c") (pyOr (dget it "ref") (.pnum 0)))
  let ref_price ← tryFloat (pyOr (dget it "ref") (.pnum 0))
  let open_p ← tryFloat (pyOr (dget it "op") (.pnum 0))
  some [("symbol", dget it "s"), ("price", .pnum price),
    ("ref_price", .pnum ref_price), ("open", .pnum open_p),
    ("source", .pstr "VCI_DIRECT")]

/-- The direct single-symbol fetch leg: `directResp` is the parsed JSON
list when the HTTP call returned 200, `none` when it failed; the first
element, if any, is normalized. -/
def directFetchDetail (directResp : Option (List (Assoc PyVal))) :
    Option (Assoc PyVal) :=
  match directResp with
  | some (it :: _) => normalizeDirect it
  | _ => none

/-- `get_price_detail(symbol)`: uppercase the symbol, try the RAM cache
(a falsy — empty — cached record falls through), else the one-shot direct
fetch. -/
def get_price_detail (cache : Assoc (Assoc PyVal)) (symbol : String)
    (directResp : Option (List (Assoc PyVal))) : Option (Assoc PyVal) :=
  match dlookup cache (strUpper symbol) with
  | some item =>
      if item.isEmpty then directFetchDetail directResp
      else normalizeCacheHit item
  | none => directFetchDetail directResp

/-- `get_price(symbol)`: the `price` field of the detail record, if any. -/
def get_price (cache : Assoc (Assoc PyVal)) (symbol : String)
    (directResp : Option (List (Assoc PyVal))) : Option PyVal :=
  (get_price_detail cache symbol directResp).map (fun d => dget d "price")

/-- One iteration of the `get_multiple_prices` loop: `if price:` keeps
only truthy prices, stored under the upper-cased symbol. -/
def gmpStep (cache : Assoc (Assoc PyVal))
    (fetch : String → Option (List (Assoc PyVal)))
    (results : Assoc PyVal) (symbol : String) : Assoc PyVal :=
  match get_price cache symbol (fetch symbol) with
  | some p => if truthy p then dset results (strUpper symbol) p else results
  | none => results

/-- `get_multiple_prices(symbols)`, with each symbol's would-be direct
fetch response supplied by `fetch`. -/
def get_multiple_prices (cache : Assoc (Assoc PyVal))
    (fetch : String → Option (List (Assoc PyVal)))
    (symbols : List String) : Assoc PyVal :=
  symbols.foldl (gmpStep cache fetch) []

/-! ### The lifecycle guard (`ensure_background_refresh` /
`ensure_indices_refresh`)

The double-checked locking pattern is modelled as an interleaving
transition system: each caller thread runs the program

```
if not started:            # unsynchronized read        (start)
    with lock:             # acquire                    (acq)
        if not started:    # re-check under lock        (recheck)
            spawn thread   #                            (spawnStep)
            started = True #                            (setFlag)
                           # release at end of `with`   (rel)
```

`spawns` counts how many background loop instances were ever launched. -/

/-- Program counter of one caller thread of `ensure_started`. -/
inductive GuardPC where
  | start | acq | recheck | spawnStep | setFlag | rel | done
  deriving DecidableEq

/-- Global state: the `_*_thread_started` flag, the holder of `_lock`,
the number of loop instances launched, and each thread's position. -/
structure GuardState where
  flag : Bool
  lock : Option Nat
  spawns : Nat
  pcs : List GuardPC

/-- Program counters at which a thread holds the lock. -/
def lockedPC : GuardPC → Bool
  | .recheck | .spawnStep | .setFlag | .rel => true
  | _ => false

/-- One interleaved step of any caller thread. -/
inductive GuardStep : GuardState → GuardState → Prop where
  | check_true (s : GuardState) (i : Nat) (h : s.pcs[i]? = some GuardPC.start)
      (hf : s.flag = true) :
      GuardStep s { s with pcs := s.pcs.set i .done }
  | check_false (s : GuardState) (i : Nat) (h : s.pcs[i]? = some GuardPC.start)
      (hf : s.flag = false) :
      GuardStep s { s with pcs := s.pcs.set i .acq }
  | acquire (s : GuardState) (i : Nat) (h : s.pcs[i]? = some GuardPC.acq)
      (hl : s.lock = none) :
      GuardStep s { s with lock := some i, pcs := s.pcs.set i .recheck }
  | recheck_true (s : GuardState) (i : Nat) (h : s.pcs[i]? = some GuardPC.recheck)
      (hf : s.flag = true) :
      GuardStep s { s with pcs := s.pcs.set i .rel }
  | recheck_false (s : GuardState) (i : Nat) (h : s.pcs[i]? = some GuardPC.recheck)
      (hf : s.flag = false) :
      GuardStep s { s with pcs := s.pcs.set i .spawnStep }
  | spawn (s : GuardState) (i : Nat) (h : s.pcs[i]? = some GuardPC.spawnStep) :
      GuardStep s { s with spawns := s.spawns + 1, pcs := s.pcs.set i .setFlag }
  | set_flag (s : GuardState) (i : Nat) (h : s.pcs[i]? = some GuardPC.setFlag) :
      GuardStep s { s with flag := true, pcs := s.pcs.set i .rel }
  | release (s : GuardState) (i : Nat) (h : s.pcs[i]? = some GuardPC.rel) :
      GuardStep s { s with lock := none, pcs := s.pcs.set i .done }

/-- `n` caller threads about to enter `ensure_started`, flag clear, lock
free, no loop launched. -/
def guardInit (n : Nat) : GuardState :=
  ⟨false, none, 0, List.replicate n .start⟩

/-- Reachability under interleaved steps. -/
abbrev GuardReachable := Relation.ReflTransGen GuardStep

/-- Mutual exclusion: a thread inside the `with lock:` block is the lock
holder. -/
def GuardLockInv (s : GuardState) : Prop :=
  ∀ (i : Nat) (pc : GuardPC), s.pcs[i]? = some pc → lockedPC pc = true → s.lock = some i

/-- Phase invariant: either nothing launched and nobody past the spawn,
or exactly one launch with its thread still before `started = True`, or
the flag is set, exactly one launch happened, and nobody can launch
again. -/
def GuardPhase (s : GuardState) : Prop :=
  (s.flag = false ∧ s.spawns = 0 ∧
    ∀ (i : Nat) (pc : GuardPC), s.pcs[i]? = some pc → pc ≠ GuardPC.setFlag) ∨
  (s.flag = false ∧ s.spawns = 1 ∧ ∃ i : Nat, s.pcs[i]? = some GuardPC.setFlag) ∨
  (s.flag = true ∧ s.spawns = 1 ∧
    ∀ (i : Nat) (pc : GuardPC), s.pcs[i]? = some pc → pc ≠ GuardPC.spawnStep ∧ pc ≠ GuardPC.setFlag)

/-- The full guard invariant. -/
def GuardInv (s : GuardState) : Prop := GuardLockInv s ∧ GuardPhase s

/-! ## Theorems -/

/-! ### Basic association-list lemmas -/

theorem dlookup_dset_eq {α : Type} (d : Assoc α) (k : String) (v : α) :
    dlookup (dset d k v) k = some v := by
  induction d with
  | nil => simp [dset, dlookup]
  | cons hd tl ih =>
      obtain ⟨k', w⟩ := hd
      by_cases h : k' = k
      · simp [dset, h, dlookup]
      · simp [dset, h, dlookup, ih]

theorem dlookup_dset_ne {α : Type} (d : Assoc α) (k k' : String) (v : α)
    (h : k ≠ k') : dlookup (dset d k v) k' = dlookup d k' := by
  induction d with
  | nil => simp [dset, dlookup, h]
  | cons hd tl ih =>
      obtain ⟨k₀, w⟩ := hd
      by_cases h0 : k₀ = k
      · subst h0
        simp [dset, dlookup, h]
      · by_cases h1 : k₀ = k'
        · simp [dset, h0, dlookup, h1, Ne.symm h]
        · simp [dset, h0, dlookup, h1, ih]

theorem dset_ne_nil {α : Type} (d : Assoc α) (k : String) (v : α) :
    dset d k v ≠ [] := by
  cases d with
  | nil => simp [dset]
  | cons hd tl =>
      obtain ⟨k', w⟩ := hd
      by_cases h : k' = k <;> simp [dset, h]

/-- Looking up in `d.update(e)`: a key bound in `e` takes `e`'s (first)
value, provided `e` has no duplicate keys; otherwise `d`'s value. -/
theorem dlookup_dictUpdate {α : Type} (e d : Assoc α) (k : String)
    (he : (keys e).Nodup) :
    dlookup (dictUpdate d e) k =
      match dlookup e k with
      | some v => some v
      | none => dlookup d k := by
  induction e generalizing d with
  | nil => simp [dictUpdate, dlookup]
  | cons hd tl ih =>
      obtain ⟨k', v⟩ := hd
      simp only [keys, List.map_cons, List.nodup_cons] at he
      have step : dictUpdate d ((k', v) :: tl) = dictUpdate (dset d k' v) tl := by
        simp [dictUpdate, List.foldl_cons]
      rw [step, ih _ he.2]
      by_cases h : k' = k
      · subst h
        have hnone : dlookup tl k' = none := by
          cases hfind : dlookup tl k' with
          | none => rfl
          | some w =>
              exfalso
              apply he.1
              have : k' ∈ keys tl := by
                clear ih he step
                induction tl with
                | nil => simp [dlookup] at hfind
                | cons hd2 tl2 ih2 =>
                    obtain ⟨k₂, w₂⟩ := hd2
                    by_cases h2 : k₂ = k'
                    · subst h2; simp [keys]
                    · simp [dlookup, h2] at hfind
                      simp [keys]
                      right
                      have := ih2 hfind
                      simpa [keys] using this
              simpa [keys] using this
        simp [dlookup, hnone, dlookup_dset_eq]
      · have hne : k' ≠ k := h
        simp [dlookup, hne, dlookup_dset_ne d k' k v hne]

theorem dictUpdate_nil_right {α : Type} (d : Assoc α) : dictUpdate d [] = d := rfl

theorem dictUpdate_ne_nil_left {α : Type} (d e : Assoc α) (hd : d ≠ []) :
    dictUpdate d e ≠ [] := by
  induction e generalizing d with
  | nil => simpa [dictUpdate]
  | cons hd2 tl ih =>
      obtain ⟨k, v⟩ := hd2
      have step : dictUpdate d ((k, v) :: tl) = dictUpdate (dset d k v) tl := by
        simp [dictUpdate, List.foldl_cons]
      rw [step]
      exact ih _ (dset_ne_nil d k v)

theorem dictUpdate_ne_nil_right {α : Type} (d e : Assoc α) (he : e ≠ []) :
    dictUpdate d e ≠ [] := by
  cases e with
  | nil => exact absurd rfl he
  | cons hd tl =>
      obtain ⟨k, v⟩ := hd
      have step : dictUpdate d ((k, v) :: tl) = dictUpdate (dset d k v) tl := by
        simp [dictUpdate, List.foldl_cons]
      rw [step]
      exact dictUpdate_ne_nil_left _ _ (dset_ne_nil d k v)

theorem dlookup_mem {α : Type} (d : Assoc α) (k : String) (v : α)
    (h : dlookup d k = some v) : (k, v) ∈ d := by
  induction d with
  | nil => simp [dlookup] at h
  | cons hd tl ih =>
      obtain ⟨k₀, w⟩ := hd
      by_cases h0 : k₀ = k
      · subst h0
        simp [dlookup] at h
        simp [h]
      · simp [dlookup, h0] at h
        exact List.mem_cons_of_mem _ (ih h)

theorem mem_dset {α : Type} (d : Assoc α) (k : String) (v : α) (p : String × α)
    (h : p ∈ dset d k v) : p = (k, v) ∨ p ∈ d := by
  induction d with
  | nil => simpa [dset] using h
  | cons hd tl ih =>
      obtain ⟨k₀, w⟩ := hd
      by_cases h0 : k₀ = k
      · subst h0
        simp [dset] at h
        rcases h with h | h
        · exact Or.inl h
        · exact Or.inr (List.mem_cons_of_mem _ h)
      · simp [dset, h0] at h
        rcases h with h | h
        · exact Or.inr (by simp [h])
        · rcases ih h with h1 | h1
          · exact Or.inl h1
          · exact Or.inr (List.mem_cons_of_mem _ h1)

/-! ### C1, C2, C10: `update_bulk_cache` -/

/-- C1: an update cycle whose merged mapping is empty leaves both the
price cache and the last-cache-update timestamp exactly as they were. -/
theorem claim_C1_total_failure_keeps_cache (s : PriceState) (now : Nat)
    (hose hnx upcom : Assoc (Assoc PyVal))
    (h : mergeGroups hose hnx upcom = []) :
    update_bulk_cache s now hose hnx upcom = s := by
  simp [update_bulk_cache, h]

theorem claim_C1_total_failure_keeps_cache_witness :
    mergeGroups [] [] [] = [] ∧
      update_bulk_cache ⟨[("FPT", [("s", .pstr "FPT")])], 7⟩ 99 [] [] [] =
        ⟨[("FPT", [("s", .pstr "FPT")])], 7⟩ :=
  ⟨rfl, claim_C1_total_failure_keeps_cache _ 99 [] [] [] rfl⟩

/-- C2: with HOSE yielding `{X: recA}`, HNX failing (empty), and UPCOM
yielding `{Y: recC}` (`X ≠ Y`), the cache after the update is exactly
`{X: recA, Y: recC}` — whatever the previous cache held. -/
theorem claim_C2_partial_failure_merge (s : PriceState) (now : Nat)
    (X Y : String) (recA recC : Assoc PyVal) (hXY : X ≠ Y) :
    (update_bulk_cache s now [(X, recA)] [] [(Y, recC)]).price_cache =
      [(X, recA), (Y, recC)] ∧
    (update_bulk_cache s now [(X, recA)] [] [(Y, recC)]).last_cache_update = now := by
  have hmerge : mergeGroups [(X, recA)] [] [(Y, recC)] = [(X, recA), (Y, recC)] := by
    simp [mergeGroups, dictUpdate, dset, hXY, Ne.symm hXY]
  constructor <;> simp [update_bulk_cache, hmerge]

theorem claim_C2_partial_failure_merge_witness :
    (update_bulk_cache ⟨[("OLD", [("s", .pstr "OLD")])], 3⟩ 50
        [("VNM", [("s", .pstr "VNM"), ("c", .pnum 80)])] []
        [("ABC", [("s", .pstr "ABC"), ("c", .pnum 12)])]).price_cache =
      [("VNM", [("s", .pstr "VNM"), ("c", .pnum 80)]),
       ("ABC", [("s", .pstr "ABC"), ("c", .pnum 12)])] :=
  (claim_C2_partial_failure_merge _ 50 "VNM" "ABC" _ _ (by decide)).1

/-- C10: when a symbol occurs in more than one group's result, the merged
cache keeps the record of the group latest in the fixed order
HOSE, HNX, UPCOM — the lookup in the new cache is UPCOM's binding, else
HNX's, else HOSE's. -/
theorem claim_C10_later_group_wins (s : PriceState) (now : Nat)
    (hose hnx upcom : Assoc (Assoc PyVal)) (sym : String)
    (hh : (keys hose).Nodup) (hn : (keys hnx).Nodup) (hu : (keys upcom).Nodup)
    (hmem : dlookup upcom sym ≠ none ∨ dlookup hnx sym ≠ none ∨
      dlookup hose sym ≠ none) :
    dlookup (update_bulk_cache s now hose hnx upcom).price_cache sym =
      match dlookup upcom sym with
      | some v => some v
      | none =>
          match dlookup hnx sym with
          | some v => some v
          | none => dlookup hose sym := by
  have hne : mergeGroups hose hnx upcom ≠ [] := by
    rcases hmem with h | h | h
    · apply dictUpdate_ne_nil_right
      intro he
      subst he
      exact h rfl
    · apply dictUpdate_ne_nil_left
      apply dictUpdate_ne_nil_right
      intro he
      subst he
      exact h rfl
    · apply dictUpdate_ne_nil_left
      apply dictUpdate_ne_nil_left
      apply dictUpdate_ne_nil_right
      intro he
      subst he
      exact h rfl
  have hcache : (update_bulk_cache s now hose hnx upcom).price_cache =
      mergeGroups hose hnx upcom := by
    simp [update_bulk_cache, List.isEmpty_iff, hne]
  rw [hcache, mergeGroups, dlookup_dictUpdate _ _ _ hu,
    dlookup_dictUpdate _ _ _ hn, dlookup_dictUpdate _ _ _ hh]
  cases dlookup upcom sym <;> cases dlookup hnx sym <;>
    cases dlookup hose sym <;> simp [dlookup]

theorem claim_C10_later_group_wins_witness :
    dlookup (update_bulk_cache ⟨[], 0⟩ 10
        [("VNM", [("c", .pnum 1)])] [("VNM", [("c", .pnum 2)])]
        [("VNM", [("c", .pnum 3)])]).price_cache "VNM" =
      some [("c", .pnum 3)] := by
  have h := claim_C10_later_group_wins ⟨[], 0⟩ 10
    [("VNM", [("c", .pnum 1)])] [("VNM", [("c", .pnum 2)])]
    [("VNM", [("c", .pnum 3)])] "VNM"
    (by simp [keys]) (by simp [keys]) (by simp [keys])
    (Or.inl (by simp [dlookup]))
  exact h

/-! ### C3, C4: `_update_indices_cache` -/

/-- C3: updating the index cache with an empty items list changes nothing:
snapshot, timestamp, source tag and every history buffer are exactly as
before. -/
theorem claim_C3_empty_update_is_noop (s : IndicesState) (source : String)
    (now : Nat) : update_indices_cache s [] source now = s := rfl

theorem bufStep_eq_rtake (b : List Rat) (v : Rat) :
    bufStep b v = (b ++ [v]).rtake HISTORY_SIZE := by
  unfold bufStep List.rtake
  by_cases h : HISTORY_SIZE < (b ++ [v]).length
  · rw [if_pos h]
  · rw [if_neg h, Nat.sub_eq_zero_of_le (Nat.le_of_not_lt h), List.drop_zero]

theorem length_bufStep_le (b : List Rat) (v : Rat) :
    (bufStep b v).length ≤ HISTORY_SIZE := by
  unfold bufStep
  by_cases h : HISTORY_SIZE < (b ++ [v]).length
  · simp only [h, if_true, List.length_drop]
    omega
  · simp only [h, if_false]
    omega

theorem rtake_append_rtake {α : Type} (l r : List α) (n : Nat) :
    (l.rtake n ++ r).rtake n = (l ++ r).rtake n := by
  rw [List.rtake_eq_reverse_take_reverse (l := l.rtake n ++ r),
    List.rtake_eq_reverse_take_reverse (l := l ++ r)]
  congr 1
  rw [List.reverse_append, List.reverse_append,
    List.rtake_eq_reverse_take_reverse, List.reverse_reverse,
    List.take_append_eq_append_take, List.take_append_eq_append_take,
    List.take_take, Nat.min_eq_left (Nat.sub_le _ _)]

theorem foldl_bufStep_eq (vs : List Rat) :
    ∀ b : List Rat, b.length ≤ HISTORY_SIZE →
      vs.foldl bufStep b = (b ++ vs).rtake HISTORY_SIZE := by
  induction vs with
  | nil =>
      intro b hb
      simp only [List.foldl_nil, List.append_nil, List.rtake]
      rw [Nat.sub_eq_zero_of_le hb, List.drop_zero]
  | cons v vs ih =>
      intro b hb
      rw [List.foldl_cons, ih _ (length_bufStep_le b v), bufStep_eq_rtake,
        rtake_append_rtake]
      simp [List.append_assoc]

theorem update_single_history (st : IndicesState) (s : String) (hs : s ≠ "")
    (v : Rat) (src : String) (now : Nat) :
    (update_indices_cache st [mkIndexItem s v] src now).indices_history =
      dset st.indices_history s (bufStep ((dlookup st.indices_history s).getD []) v) := by
  have hse : s.isEmpty = false := by
    cases he : s.isEmpty
    · rfl
    · exact absurd ((String.isEmpty_iff s).mp he) hs
  simp [update_indices_cache, histStep, mkIndexItem, dget, dlookup, truthy,
    pyStr, tryFloat, hse]

theorem history_after_run (s : String) (hs : s ≠ "") :
    ∀ (vs : List Rat) (sts : List (String × Nat)) (st : IndicesState),
      vs ≠ [] → vs.length ≤ sts.length →
      dlookup (applyIndicesUpdates st
          (List.zipWith (fun v stp => ([mkIndexItem s v], stp.1, stp.2)) vs sts)).indices_history s
        = some (vs.foldl bufStep ((dlookup st.indices_history s).getD [])) := by
  intro vs
  induction vs with
  | nil => intro sts st h; exact absurd rfl h
  | cons v vs ih =>
      intro sts st _ hlen
      cases sts with
      | nil => simp at hlen
      | cons stp sts =>
          simp only [List.zipWith_cons_cons]
          have hfold : applyIndicesUpdates st
              (([mkIndexItem s v], stp.1, stp.2) ::
                List.zipWith (fun v stp => ([mkIndexItem s v], stp.1, stp.2)) vs sts) =
              applyIndicesUpdates (update_indices_cache st [mkIndexItem s v] stp.1 stp.2)
                (List.zipWith (fun v stp => ([mkIndexItem s v], stp.1, stp.2)) vs sts) := by
            simp [applyIndicesUpdates]
          rw [hfold]
          by_cases hvs : vs = []
          · subst hvs
            simp only [List.zipWith_nil_left, applyIndicesUpdates, List.foldl_nil]
            rw [update_single_history st s hs v stp.1 stp.2, dlookup_dset_eq]
            simp
          · have hlen' : vs.length ≤ sts.length := by
              simp only [List.length_cons] at hlen
              omega
            rw [ih sts _ hvs hlen']
            rw [update_single_history st s hs v stp.1 stp.2, dlookup_dset_eq]
            simp

theorem histStep_bounded (hist : Assoc (List Rat)) (item : Assoc PyVal)
    (hb : histBounded hist) : histBounded (histStep hist item) := by
  intro p hp
  unfold histStep at hp
  split at hp
  · exact hb p hp
  · split at hp
    · exact hb p hp
    · split at hp
      · exact hb p hp
      · rcases mem_dset _ _ _ _ hp with h2 | h2
        · subst h2
          exact length_bufStep_le _ _
        · exact hb p h2

theorem foldl_histStep_bounded (items : List (Assoc PyVal)) :
    ∀ hist : Assoc (List Rat), histBounded hist →
      histBounded (items.foldl histStep hist) := by
  induction items with
  | nil => intro hist hb; simpa using hb
  | cons it items ih =>
      intro hist hb
      rw [List.foldl_cons]
      exact ih _ (histStep_bounded hist it hb)

theorem updates_bounded (us : List (List (Assoc PyVal) × String × Nat)) :
    ∀ st : IndicesState, histBounded st.indices_history →
      histBounded (applyIndicesUpdates st us).indices_history := by
  induction us with
  | nil => intro st hb; simpa [applyIndicesUpdates] using hb
  | cons u us ih =>
      intro st hb
      have hfold : applyIndicesUpdates st (u :: us) =
          applyIndicesUpdates (update_indices_cache st u.1 u.2.1 u.2.2) us := by
        simp [applyIndicesUpdates]
      rw [hfold]
      apply ih
      unfold update_indices_cache
      by_cases he : u.1.isEmpty
      · simpa [he] using hb
      · simp only [he, if_false]
        exact foldl_histStep_bounded u.1 _ hb

/-- C4: (a) after any sequence of index-cache updates starting from the
initial state, every history buffer has length at most 30; (b) after
`N > 30` single-item updates carrying the same (non-empty) symbol with
distinct float prices `v1..vN`, that symbol's buffer is exactly the last
30 values in arrival order; (c) an item whose price does not parse as a
float appends nothing. -/
theorem claim_C4_history_cap_invariant
    (us : List (List (Assoc PyVal) × String × Nat))
    (sym : String) (hsym : sym ≠ "")
    (vs : List Rat) (sts : List (String × Nat))
    (hN : HISTORY_SIZE < vs.length) (hlen : vs.length ≤ sts.length)
    (hdist : vs.Nodup)
    (hist : Assoc (List Rat)) (item : Assoc PyVal)
    (hbad : tryFloat (dget item "price") = none) :
    (∀ s b, dlookup (applyIndicesUpdates initialIndicesState us).indices_history s = some b →
        b.length ≤ HISTORY_SIZE) ∧
    dlookup (applyIndicesUpdates initialIndicesState
        (List.zipWith (fun v stp => ([mkIndexItem sym v], stp.1, stp.2)) vs sts)).indices_history sym
      = some (vs.drop (vs.length - HISTORY_SIZE)) ∧
    histStep hist item = hist := by
  refine ⟨?_, ?_, ?_⟩
  · intro s b hlb
    have hinit : histBounded initialIndicesState.indices_history := by
      intro p hp
      simp [initialIndicesState] at hp
    exact updates_bounded us initialIndicesState hinit _ (dlookup_mem _ _ _ hlb)
  · have hne : vs ≠ [] := by
      intro h
      rw [h] at hN
      simp [HISTORY_SIZE] at hN
    rw [history_after_run sym hsym vs sts initialIndicesState hne hlen]
    have hinitlook : dlookup initialIndicesState.indices_history sym = none := rfl
    rw [hinitlook]
    simp only [Option.getD_none]
    rw [foldl_bufStep_eq vs [] (by simp [HISTORY_SIZE])]
    simp [List.rtake]
  · unfold histStep
    by_cases h1 : truthy (dget item "symbol")
    · simp only [h1, Bool.not_true, Bool.false_eq_true, if_false]
      cases hval : dget item "price" with
      | pnone => rfl
      | pbool b => rw [hval] at hbad; simp [tryFloat] at hbad
      | pnum q => rw [hval] at hbad; simp [tryFloat] at hbad
      | pstr s =>
          rw [hval] at hbad
          simp only [tryFloat] at hbad
          simp [tryFloat, hbad]
      | plist xs => simp [tryFloat]
      | pdict d => simp [tryFloat]
    · simp [h1]

theorem claim_C4_history_cap_invariant_witness :
    dlookup (applyIndicesUpdates initialIndicesState
        (List.zipWith (fun v stp => ([mkIndexItem "VNINDEX" v], stp.1, stp.2))
          ((List.range 31).map (fun i => (i : Rat)))
          (List.replicate 31 ("REST", 0)))).indices_history "VNINDEX"
      = some (((List.range 31).map (fun i => (i : Rat))).drop 1) ∧
    histStep [] [("symbol", .pstr "VNINDEX"), ("price", .pstr "abc")] = [] := by
  have h := claim_C4_history_cap_invariant
    [([mkIndexItem "VNINDEX" 5], "REST", 1)] "VNINDEX" (by decide)
    ((List.range 31).map (fun i => (i : Rat))) (List.replicate 31 ("REST", 0))
    (by decide) (by decide) (by decide)
    [] [("symbol", .pstr "VNINDEX"), ("price", .pstr "abc")] (by decide)
  exact ⟨h.2.1, h.2.2⟩

/-! ### C5, C8: normalization, allow-list and extraction -/

theorem normalize_none_of_not_allowed (item : Assoc PyVal)
    (h : strUpper (pyStr (resolvedIndexSymbol item)) ∉ INDEX_SYMBOLS.map strUpper) :
    normalize_index_item item = none := by
  unfold normalize_index_item
  by_cases h1 : truthy (resolvedIndexSymbol item)
  · simp [h1, h]
  · simp [h1]

theorem normalize_symbol_allowed (item n : Assoc PyVal)
    (h : normalize_index_item item = some n) :
    ∃ u ∈ INDEX_SYMBOLS.map strUpper, dget n "symbol" = .pstr u := by
  unfold normalize_index_item at h
  split at h
  · exact absurd h (by simp)
  · split at h
    · rename_i hmem
      refine ⟨strUpper (pyStr (resolvedIndexSymbol item)), hmem, ?_⟩
      have hn : n = dset (dset (dset item "symbol"
          (.pstr (strUpper (pyStr (resolvedIndexSymbol item)))))
          "price" (.pnum (coerceFloat (priceRawOf item))))
          "refPrice" (.pnum (coerceFloat (refRawOf item))) := by
        exact (Option.some_inj.mp h).symm
      rw [hn]
      unfold dget
      rw [dlookup_dset_ne _ _ _ _ (by decide), dlookup_dset_ne _ _ _ _ (by decide),
        dlookup_dset_eq]
      rfl
    · exact absurd h (by simp)

theorem sizeOf_dlookup_lt (d : List (String × PyVal)) (k : String) (v : PyVal)
    (h : dlookup d k = some v) : sizeOf v < sizeOf d := by
  induction d with
  | nil => simp [dlookup] at h
  | cons hd tl ih =>
      obtain ⟨k₀, w⟩ := hd
      by_cases h0 : k₀ = k
      · subst h0
        simp [dlookup] at h
        subst h
        simp
        omega
      · simp [dlookup, h0] at h
        have := ih h
        simp
        omega

/-- Everything `collect` gathers is the output of a successful
`_normalize_index_item`. -/
theorem collect_normalized_aux :
    ∀ (n : Nat) (v : PyVal), sizeOf v ≤ n →
      ∀ it ∈ collectVal v, ∃ d, normalize_index_item d = some it := by
  intro n
  induction n with
  | zero =>
      intro v hv
      cases v <;> simp at hv
  | succ n ih =>
      intro v hv it hit
      cases v with
      | plist xs =>
          simp only [collectVal] at hit
          rw [List.mem_flatMap] at hit
          obtain ⟨x, hxmem, hit⟩ := hit
          have hsz : sizeOf x.1 ≤ n := by
            have h1 := List.sizeOf_lt_of_mem x.2
            have h2 : sizeOf (PyVal.plist xs) = 1 + sizeOf xs := by simp
            omega
          exact ih x.1 hsz it hit
      | pdict d =>
          simp only [collectVal] at hit
          rw [List.mem_append] at hit
          rcases hit with hit | hit
          · cases hn : normalize_index_item d with
            | none => rw [hn] at hit; simp at hit
            | some nn =>
                rw [hn] at hit
                simp at hit
                exact ⟨d, by rw [hn, hit]⟩
          · rw [List.mem_flatMap] at hit
            obtain ⟨k, _, hit⟩ := hit
            cases hdk : dlookup d k with
            | none =>
                rw [hdk] at hit  -- the inner match reduces to []
                simp at hit
            | some v' =>
                rw [hdk] at hit
                have hsz : sizeOf v' ≤ n := by
                  have h1 := sizeOf_dlookup_lt d k v' hdk
                  have h2 : sizeOf (PyVal.pdict d) = 1 + sizeOf d := by simp
                  omega
                exact ih v' hsz it hit
      | pnone => simp [collectVal] at hit
      | pbool b => simp [collectVal] at hit
      | pnum q => simp [collectVal] at hit
      | pstr s => simp [collectVal] at hit

theorem collect_normalized (v : PyVal) :
    ∀ it ∈ collectVal v, ∃ d, normalize_index_item d = some it :=
  collect_normalized_aux (sizeOf v) v (Nat.le_refl _)

/-! Generic facts about the `by_symbol` insertion fold and `lastWith`. -/

theorem dset_cons_eq {α : Type} (k : String) (w v : α) (tl : Assoc α) :
    dset ((k, w) :: tl) k v = (k, v) :: tl := by simp [dset]

theorem dset_cons_ne {α : Type} (k₀ k : String) (w v : α) (tl : Assoc α)
    (h : k₀ ≠ k) : dset ((k₀, w) :: tl) k v = (k₀, w) :: dset tl k v := by
  simp [dset, h]

theorem mem_keys_dset {α : Type} (d : Assoc α) (k k' : String) (v : α)
    (h : k' ∈ keys (dset d k v)) : k' ∈ keys d ∨ k' = k := by
  induction d with
  | nil =>
      simp [dset, keys] at h
      exact Or.inr h
  | cons hd tl ih =>
      obtain ⟨k₀, w⟩ := hd
      by_cases h0 : k₀ = k
      · subst h0
        rw [dset_cons_eq] at h
        exact Or.inl (by simpa [keys] using h)
      · rw [dset_cons_ne _ _ _ _ _ h0] at h
        simp only [keys, List.map_cons, List.mem_cons] at h
        rcases h with h | h
        · exact Or.inl (by simp [keys, h])
        · rcases ih (by simpa [keys] using h) with h1 | h1
          · refine Or.inl ?_
            simp only [keys, List.map_cons, List.mem_cons]
            exact Or.inr (by simpa [keys] using h1)
          · exact Or.inr h1

theorem keys_dset_nodup {α : Type} (d : Assoc α) (k : String) (v : α)
    (h : (keys d).Nodup) : (keys (dset d k v)).Nodup := by
  induction d with
  | nil => simp [dset, keys]
  | cons hd tl ih =>
      obtain ⟨k₀, w⟩ := hd
      simp only [keys, List.map_cons, List.nodup_cons] at h
      by_cases h0 : k₀ = k
      · subst h0
        rw [dset_cons_eq]
        simp only [keys, List.map_cons, List.nodup_cons]
        exact ⟨by simpa [keys] using h.1, h.2⟩
      · rw [dset_cons_ne _ _ _ _ _ h0]
        simp only [keys, List.map_cons, List.nodup_cons]
        refine ⟨?_, ih h.2⟩
        intro hmem
        rcases mem_keys_dset tl k k₀ v (by simpa [keys] using hmem) with h1 | h1
        · exact h.1 (by simpa [keys] using h1)
        · exact h0 h1

theorem insertBySym_keys_nodup (xs : List (Assoc PyVal)) :
    ∀ acc : Assoc (Assoc PyVal), (keys acc).Nodup →
      (keys (insertBySym acc xs)).Nodup := by
  induction xs with
  | nil => intro acc h; simpa [insertBySym] using h
  | cons x xs ih =>
      intro acc h
      have step : insertBySym acc (x :: xs) = insertBySym (dset acc (symKeyOf x) x) xs := by
        simp [insertBySym]
      rw [step]
      exact ih _ (keys_dset_nodup acc (symKeyOf x) x h)

theorem insertBySym_keyconsistent (xs : List (Assoc PyVal)) :
    ∀ acc : Assoc (Assoc PyVal), (∀ p ∈ acc, Prod.fst p = symKeyOf (Prod.snd p)) →
      ∀ p ∈ insertBySym acc xs, Prod.fst p = symKeyOf (Prod.snd p) := by
  induction xs with
  | nil => intro acc h; simpa [insertBySym] using h
  | cons x xs ih =>
      intro acc h
      have step : insertBySym acc (x :: xs) = insertBySym (dset acc (symKeyOf x) x) xs := by
        simp [insertBySym]
      rw [step]
      apply ih
      intro p hp
      rcases mem_dset _ _ _ _ hp with h1 | h1
      · subst h1; rfl
      · exact h p h1

theorem insertBySym_values_sub (xs : List (Assoc PyVal)) :
    ∀ (acc : Assoc (Assoc PyVal)) (p : String × Assoc PyVal),
      p ∈ insertBySym acc xs → Prod.snd p ∈ xs ∨ p ∈ acc := by
  induction xs with
  | nil => intro acc p h; exact Or.inr (by simpa [insertBySym] using h)
  | cons x xs ih =>
      intro acc p h
      have step : insertBySym acc (x :: xs) = insertBySym (dset acc (symKeyOf x) x) xs := by
        simp [insertBySym]
      rw [step] at h
      rcases ih _ p h with h1 | h1
      · exact Or.inl (List.mem_cons_of_mem _ h1)
      · rcases mem_dset _ _ _ _ h1 with h2 | h2
        · subst h2; exact Or.inl (List.mem_cons_self _ _)
        · exact Or.inr h2

theorem foldl_lastWith {α : Type} (p : α → Bool) (l : List α) :
    ∀ a : Option α,
      l.foldl (fun acc x => if p x then some x else acc) a =
        match lastWith p l with
        | some y => some y
        | none => a := by
  induction l with
  | nil => intro a; simp [lastWith]
  | cons x l ih =>
      intro a
      have hl : lastWith p (x :: l) =
          l.foldl (fun acc x => if p x then some x else acc)
            (if p x then some x else none) := by
        simp [lastWith]
      rw [List.foldl_cons, ih, hl, ih]
      cases hw : lastWith p l with
      | some y => simp
      | none => by_cases hx : p x <;> simp [hx]

theorem lastWith_cons {α : Type} (p : α → Bool) (x : α) (l : List α) :
    lastWith p (x :: l) =
      match lastWith p l with
      | some y => some y
      | none => if p x then some x else none := by
  have : lastWith p (x :: l) =
      l.foldl (fun acc x => if p x then some x else acc) (if p x then some x else none) := by
    simp [lastWith]
  rw [this, foldl_lastWith]

theorem lastWith_sat {α : Type} (p : α → Bool) (l : List α) :
    ∀ x, lastWith p l = some x → p x = true := by
  induction l with
  | nil => intro x h; simp [lastWith] at h
  | cons y l ih =>
      intro x h
      rw [lastWith_cons] at h
      cases hw : lastWith p l with
      | some z =>
          rw [hw] at h
          simp at h
          subst h
          exact ih z hw
      | none =>
          rw [hw] at h
          by_cases hy : p y
          · simp [hy] at h
            subst h
            exact hy
          · simp [hy] at h

theorem lastWith_none {α : Type} (p : α → Bool) (l : List α) :
    lastWith p l = none → ∀ x ∈ l, p x = false := by
  induction l with
  | nil => intro _ x hx; simp at hx
  | cons y l ih =>
      intro h x hx
      rw [lastWith_cons] at h
      cases hw : lastWith p l with
      | some z => rw [hw] at h; simp at h
      | none =>
          rw [hw] at h
          by_cases hy : p y
          · simp [hy] at h
          · rcases List.mem_cons.mp hx with h1 | h1
            · subst h1; simpa using hy
            · exact ih hw x h1

theorem insertBySym_lookup (xs : List (Assoc PyVal)) :
    ∀ (acc : Assoc (Assoc PyVal)) (k : String),
      dlookup (insertBySym acc xs) k =
        match lastWith (fun x => decide (symKeyOf x = k)) xs with
        | some x => some x
        | none => dlookup acc k := by
  induction xs with
  | nil => intro acc k; simp [insertBySym, lastWith]
  | cons x xs ih =>
      intro acc k
      have step : insertBySym acc (x :: xs) = insertBySym (dset acc (symKeyOf x) x) xs := by
        simp [insertBySym]
      rw [step, ih, lastWith_cons]
      cases hw : lastWith (fun x => decide (symKeyOf x = k)) xs with
      | some y => simp
      | none =>
          by_cases hx : symKeyOf x = k
          · subst hx
            simp [dlookup_dset_eq]
          · simp only [hx, decide_eq_true_eq, if_neg]
            rw [dlookup_dset_ne _ _ _ _ hx]
            simp [hx]

theorem pair_lookup_of_nodup {α : Type} (d : Assoc α) (k : String) (v : α)
    (hnd : (keys d).Nodup) (h : (k, v) ∈ d) : dlookup d k = some v := by
  induction d with
  | nil => simp at h
  | cons hd tl ih =>
      obtain ⟨k₀, w⟩ := hd
      simp only [keys, List.map_cons, List.nodup_cons] at hnd
      rcases List.mem_cons.mp h with h1 | h1
      · rw [Prod.mk.injEq] at h1
        obtain ⟨rfl, rfl⟩ := h1
        simp [dlookup]
      · have hk : k ∈ keys tl := by
          simp only [keys, List.mem_map]
          exact ⟨(k, v), h1, rfl⟩
        have hne : k₀ ≠ k := by
          intro he
          subst he
          exact hnd.1 (by simpa [keys] using hk)
        simp only [dlookup, hne, if_false]
        exact ih hnd.2 h1

/-- C8: `_extract_index_items_from_payload` returns at most one item per
(upper-cased, stringified) symbol; the item kept for a symbol is the
last-seen candidate with that symbol in the recursive collection order;
and every collected candidate's symbol is represented in the output. -/
theorem claim_C8_extract_dedup (payload : PyVal) :
    ((extract_index_items payload).map symKeyOf).Nodup ∧
    (∀ it ∈ extract_index_items payload,
      lastWith (fun c => decide (symKeyOf c = symKeyOf it)) (collectVal payload) = some it) ∧
    (∀ c ∈ collectVal payload,
      ∃ it ∈ extract_index_items payload, symKeyOf it = symKeyOf c) := by
  have hnodup : (keys (insertBySym [] (collectVal payload))).Nodup :=
    insertBySym_keys_nodup _ [] (by simp [keys])
  have hcons : ∀ p ∈ insertBySym [] (collectVal payload),
      Prod.fst p = symKeyOf (Prod.snd p) :=
    insertBySym_keyconsistent _ [] (by simp)
  refine ⟨?_, ?_, ?_⟩
  · have hmapeq : (extract_index_items payload).map symKeyOf =
        keys (insertBySym [] (collectVal payload)) := by
      unfold extract_index_items keys
      rw [List.map_map]
      apply List.map_congr_left
      intro p hp
      exact (hcons p hp).symm
    rw [hmapeq]
    exact hnodup
  · intro it hit
    obtain ⟨p, hp, hpe⟩ := List.mem_map.mp hit
    have hkey : Prod.fst p = symKeyOf it := by
      rw [← hpe]
      exact hcons p hp
    have hlk : dlookup (insertBySym [] (collectVal payload)) (symKeyOf it) = some it := by
      rw [← hkey, ← hpe]
      exact pair_lookup_of_nodup _ _ _ hnodup (by
        obtain ⟨p1, p2⟩ := p
        exact hp)
    rw [insertBySym_lookup] at hlk
    cases hw : lastWith (fun c => decide (symKeyOf c = symKeyOf it)) (collectVal payload) with
    | some y =>
        rw [hw] at hlk
        simpa using hlk
    | none =>
        rw [hw] at hlk
        simp [dlookup] at hlk
  · intro c hc
    cases hw : lastWith (fun x => decide (symKeyOf x = symKeyOf c)) (collectVal payload) with
    | none =>
        have := lastWith_none _ _ hw c hc
        simp at this
    | some x =>
        have hlk : dlookup (insertBySym [] (collectVal payload)) (symKeyOf c) = some x := by
          rw [insertBySym_lookup, hw]
        have hpmem := dlookup_mem _ _ _ hlk
        refine ⟨x, ?_, ?_⟩
        · unfold extract_index_items
          exact List.mem_map.mpr ⟨(symKeyOf c, x), hpmem, rfl⟩
        · have := hcons (symKeyOf c, x) hpmem
          exact this.symm

/-- C5: a payload dict whose resolved symbol (stringified, upper-cased)
is not in the allow-list normalizes to no item; and after any sequence of
payload-driven updates from the initial state, every snapshot entry's
symbol is one of the (upper-cased) allow-list symbols — so no entry for a
symbol like FOOBAR can ever appear. -/
theorem claim_C5_allowlist_filtering (item : Assoc PyVal)
    (hsym : strUpper (pyStr (resolvedIndexSymbol item)) ∉ INDEX_SYMBOLS.map strUpper)
    (ps : List (PyVal × String × Nat)) :
    normalize_index_item item = none ∧
    ∀ it ∈ (applyPayloadUpdates initialIndicesState ps).indices_cache,
      ∃ u ∈ INDEX_SYMBOLS.map strUpper, dget it "symbol" = .pstr u := by
  constructor
  · exact normalize_none_of_not_allowed item hsym
  · have main : ∀ (ps : List (PyVal × String × Nat)) (st : IndicesState),
        (∀ it ∈ st.indices_cache, ∃ u ∈ INDEX_SYMBOLS.map strUpper,
          dget it "symbol" = .pstr u) →
        ∀ it ∈ (applyPayloadUpdates st ps).indices_cache,
          ∃ u ∈ INDEX_SYMBOLS.map strUpper, dget it "symbol" = .pstr u := by
      intro ps
      induction ps with
      | nil => intro st h; simpa [applyPayloadUpdates] using h
      | cons p ps ih =>
          intro st h
          have step : applyPayloadUpdates st (p :: ps) =
              applyPayloadUpdates
                (update_indices_cache st (extract_index_items p.1) p.2.1 p.2.2) ps := by
            simp [applyPayloadUpdates]
          rw [step]
          apply ih
          unfold update_indices_cache
          by_cases he : (extract_index_items p.1).isEmpty
          · simpa [he] using h
          · simp only [he, if_false]
            intro it hit
            have hsub : it ∈ (insertBySym [] (collectVal p.1)).map Prod.snd := hit
            obtain ⟨q, hq, hqe⟩ := List.mem_map.mp hsub
            rcases insertBySym_values_sub _ [] q hq with h1 | h1
            · rw [← hqe]
              obtain ⟨d, hd⟩ := collect_normalized p.1 (Prod.snd q) h1
              exact normalize_symbol_allowed d _ hd
            · simp at h1
    exact main ps initialIndicesState (by simp [initialIndicesState])

theorem claim_C5_allowlist_filtering_witness :
    strUpper (pyStr (resolvedIndexSymbol [("symbol", .pstr "FOOBAR")]))
        ∉ INDEX_SYMBOLS.map strUpper ∧
    normalize_index_item [("symbol", .pstr "FOOBAR")] = none :=
  ⟨by decide,
   (claim_C5_allowlist_filtering [("symbol", .pstr "FOOBAR")] (by decide) []).1⟩

theorem claim_C8_extract_dedup_witness :
    ((extract_index_items (.pdict [("data", .plist
        [.pdict [("symbol", .pstr "VNINDEX"), ("price", .pnum 1)],
         .pdict [("s", .pstr "vnindex"), ("c", .pnum 2)]])])).map symKeyOf).Nodup :=
  (claim_C8_extract_dedup _).1

/-! ### C6, C7: `get_price_detail`, `get_price`, `get_multiple_prices` -/

theorem normalizeCacheHit_price (item d : Assoc PyVal)
    (h : normalizeCacheHit item = some d) :
    ∃ p, tryFloat (pyOr (dget item "c") (pyOr (dget item "ref")
        (pyOr (dget item "op") (.pnum 0)))) = some p ∧
      dget d "price" = .pnum p := by
  unfold normalizeCacheHit at h
  simp only [Option.bind_eq_bind, Option.bind_eq_some] at h
  obtain ⟨p, hp, h⟩ := h
  obtain ⟨r1, _, h⟩ := h
  obtain ⟨c1, _, h⟩ := h
  obtain ⟨f1, _, h⟩ := h
  obtain ⟨o1, _, h⟩ := h
  obtain ⟨g1, _, h⟩ := h
  obtain ⟨l1, _, h⟩ := h
  obtain ⟨v1, _, h⟩ := h
  obtain ⟨w1, _, h⟩ := h
  rw [Option.some_inj] at h
  subst h
  exact ⟨p, hp, rfl⟩

theorem normalizeDirect_price (it d : Assoc PyVal)
    (h : normalizeDirect it = some d) :
    ∃ p, tryFloat (pyOr (dget it "c") (pyOr (dget it "ref") (.pnum 0))) = some p ∧
      dget d "price" = .pnum p := by
  unfold normalizeDirect at h
  simp only [Option.bind_eq_bind, Option.bind_eq_some] at h
  obtain ⟨p, hp, h⟩ := h
  obtain ⟨r1, _, h⟩ := h
  obtain ⟨o1, _, h⟩ := h
  rw [Option.some_inj] at h
  subst h
  exact ⟨p, hp, rfl⟩

/-- C6 as stated is false: on the cache-hit path the price coercion is
`float(c or ref or op or 0)`, so a record with `c` and `ref` both missing
but a non-zero `op` yields the open price, not `0.0`. -/
theorem claim_C6_price_default_counterexample :
    dget [("s", .pstr "AAA"), ("op", .pnum 7)] "c" = .pnone ∧
    dget [("s", .pstr "AAA"), ("op", .pnum 7)] "ref" = .pnone ∧
    (get_price_detail [("AAA", [("s", .pstr "AAA"), ("op", .pnum 7)])] "AAA" none).map
        (fun d => dget d "price") = some (.pnum 7) ∧
    (7 : Rat) ≠ 0 := by
  refine ⟨rfl, rfl, rfl, by norm_num⟩

/-- C6 (amended): on the cache-hit path the price falls back through
`ref`, then `op`, then `0`: with `c` missing and `ref` a non-zero number
the price is the ref value, and with `c`, `ref`, `op` all missing it is
`0.0`; on the direct-fetch path (`c or ref or 0`, no `op`) a missing `c`
with numeric `ref` gives the ref value, and both missing give `0.0`.
Every returned record carries a definite rational in its price field. -/
theorem claim_C6_price_defaults (cache : Assoc (Assoc PyVal)) (symbol : String)
    (resp : Option (List (Assoc PyVal))) :
    (∀ item q d, dlookup cache (strUpper symbol) = some item →
        item.isEmpty = false →
        dget item "c" = .pnone → dget item "ref" = .pnum q → q ≠ 0 →
        get_price_detail cache symbol resp = some d → dget d "price" = .pnum q) ∧
    (∀ item d, dlookup cache (strUpper symbol) = some item →
        item.isEmpty = false →
        dget item "c" = .pnone → dget item "ref" = .pnone → dget item "op" = .pnone →
        get_price_detail cache symbol resp = some d → dget d "price" = .pnum 0) ∧
    (∀ it rest q d, dlookup cache (strUpper symbol) = none →
        resp = some (it :: rest) →
        dget it "c" = .pnone → dget it "ref" = .pnum q →
        get_price_detail cache symbol resp = some d → dget d "price" = .pnum q) ∧
    (∀ it rest d, dlookup cache (strUpper symbol) = none →
        resp = some (it :: rest) →
        dget it "c" = .pnone → dget it "ref" = .pnone →
        get_price_detail cache symbol resp = some d → dget d "price" = .pnum 0) := by
  refine ⟨?_, ?_, ?_, ?_⟩
  · intro item q d hlook hne hc href hq hd
    have hpath : get_price_detail cache symbol resp = normalizeCacheHit item := by
      unfold get_price_detail
      rw [hlook]
      simp [hne]
    rw [hpath] at hd
    obtain ⟨p, hp, hdp⟩ := normalizeCacheHit_price item d hd
    rw [hc, href] at hp
    have hred : pyOr PyVal.pnone (pyOr (.pnum q) (pyOr (dget item "op") (.pnum 0))) =
        .pnum q := by
      simp [pyOr, truthy, hq]
    rw [hred] at hp
    simp only [tryFloat, Option.some_inj] at hp
    rw [hdp, hp]
  · intro item d hlook hne hc href hop hd
    have hpath : get_price_detail cache symbol resp = normalizeCacheHit item := by
      unfold get_price_detail
      rw [hlook]
      simp [hne]
    rw [hpath] at hd
    obtain ⟨p, hp, hdp⟩ := normalizeCacheHit_price item d hd
    rw [hc, href, hop] at hp
    have hred : pyOr PyVal.pnone (pyOr PyVal.pnone (pyOr PyVal.pnone (.pnum 0))) =
        .pnum 0 := by
      simp [pyOr, truthy]
    rw [hred] at hp
    simp only [tryFloat, Option.some_inj] at hp
    rw [hdp, hp]
  · intro it rest q d hlook hresp hc href hd
    have hpath : get_price_detail cache symbol resp = normalizeDirect it := by
      unfold get_price_detail
      rw [hlook, hresp]
      rfl
    rw [hpath] at hd
    obtain ⟨p, hp, hdp⟩ := normalizeDirect_price it d hd
    rw [hc, href] at hp
    by_cases hq : q = 0
    · subst hq
      have hred : pyOr PyVal.pnone (pyOr (.pnum 0) (.pnum 0)) = .pnum 0 := by
        simp [pyOr, truthy]
      rw [hred] at hp
      simp only [tryFloat, Option.some_inj] at hp
      rw [hdp, hp]
    · have hred : pyOr PyVal.pnone (pyOr (.pnum q) (.pnum 0)) = .pnum q := by
        simp [pyOr, truthy, hq]
      rw [hred] at hp
      simp only [tryFloat, Option.some_inj] at hp
      rw [hdp, hp]
  · intro it rest d hlook hresp hc href hd
    have hpath : get_price_detail cache symbol resp = normalizeDirect it := by
      unfold get_price_detail
      rw [hlook, hresp]
      rfl
    rw [hpath] at hd
    obtain ⟨p, hp, hdp⟩ := normalizeDirect_price it d hd
    rw [hc, href] at hp
    have hred : pyOr PyVal.pnone (pyOr PyVal.pnone (.pnum 0)) = .pnum 0 := by
      simp [pyOr, truthy]
    rw [hred] at hp
    simp only [tryFloat, Option.some_inj] at hp
    rw [hdp, hp]

theorem claim_C6_price_defaults_witness :
    dget [("symbol", .pstr "AAA"), ("price", .pnum 5), ("ref_price", .pnum 5),
      ("ceiling", .pnum 0), ("floor", .pnum 0), ("open", .pnum 0),
      ("high", .pnum 0), ("low", .pnum 0), ("volume", .pnum 0),
      ("value", .pnum 0), ("source", .pstr "VCI_RAM")] "price" = .pnum 5 ∧
    dget [("symbol", .pstr "BBB"), ("price", .pnum 3), ("ref_price", .pnum 3),
      ("open", .pnum 0), ("source", .pstr "VCI_DIRECT")] "price" = .pnum 3 := by
  constructor
  · exact (claim_C6_price_defaults
      [("AAA", [("s", .pstr "AAA"), ("ref", .pnum 5)])] "AAA" none).1
      [("s", .pstr "AAA"), ("ref", .pnum 5)] 5 _ rfl rfl rfl rfl (by norm_num) rfl
  · exact (claim_C6_price_defaults [] "BBB"
      (some [[("s", .pstr "BBB"), ("ref", .pnum 3)]])).2.2.1
      [("s", .pstr "BBB"), ("ref", .pnum 3)] [] 3 _ rfl rfl rfl rfl rfl

/-- C7 as stated is false: `get_multiple_prices` filters with `if price:`,
so a symbol whose accessor resolves the price `0.0` is omitted even
though a price was resolved. -/
theorem claim_C7_skip_semantics_counterexample :
    get_price [("AAA", [("s", .pstr "AAA")])] "AAA" none = some (.pnum 0) ∧
    get_multiple_prices [("AAA", [("s", .pstr "AAA")])] (fun _ => none) ["AAA"] = [] :=
  ⟨rfl, rfl⟩

theorem gmp_foldl_notmem (cache : Assoc (Assoc PyVal))
    (fetch : String → Option (List (Assoc PyVal))) (symbols : List String) :
    ∀ (acc : Assoc PyVal) (key : String), key ∉ symbols.map strUpper →
      dlookup (symbols.foldl (gmpStep cache fetch) acc) key = dlookup acc key := by
  induction symbols with
  | nil => intro acc key _; simp
  | cons s rest ih =>
      intro acc key hk
      simp only [List.map_cons, List.mem_cons] at hk
      have h1 : key ≠ strUpper s := fun he => hk (Or.inl he)
      have h2 : key ∉ rest.map strUpper := fun he => hk (Or.inr he)
      rw [List.foldl_cons, ih _ _ h2]
      unfold gmpStep
      cases get_price cache s (fetch s) with
      | none => rfl
      | some p =>
          by_cases ht : truthy p
          · simp only [ht, if_true]
            exact dlookup_dset_ne _ _ _ _ (Ne.symm h1)
          · simp [ht]

theorem gmp_foldl_mem (cache : Assoc (Assoc PyVal))
    (fetch : String → Option (List (Assoc PyVal))) (symbols : List String) :
    ∀ acc : Assoc PyVal, (symbols.map strUpper).Nodup →
      (∀ s ∈ symbols, dlookup acc (strUpper s) = none) →
      ∀ sym ∈ symbols,
        dlookup (symbols.foldl (gmpStep cache fetch) acc) (strUpper sym) =
          match get_price cache sym (fetch sym) with
          | some p => if truthy p then some p else none
          | none => none := by
  induction symbols with
  | nil => intro acc _ _ sym h; simp at h
  | cons s rest ih =>
      intro acc hnd hacc sym hmem
      simp only [List.map_cons, List.nodup_cons] at hnd
      rw [List.foldl_cons]
      rcases List.mem_cons.mp hmem with h1 | h1
      · subst h1
        have hnot : strUpper sym ∉ rest.map strUpper := hnd.1
        rw [gmp_foldl_notmem cache fetch rest _ _ hnot]
        unfold gmpStep
        cases hgp : get_price cache sym (fetch sym) with
        | none => exact hacc sym (List.mem_cons_self _ _)
        | some p =>
            by_cases ht : truthy p
            · simp only [ht, if_true]
              rw [dlookup_dset_eq]
            · simp only [ht, if_false]
              exact hacc sym (List.mem_cons_self _ _)
      · apply ih _ hnd.2 _ sym h1
        intro s2 hs2
        unfold gmpStep
        cases get_price cache s (fetch s) with
        | none => exact hacc s2 (List.mem_cons_of_mem _ hs2)
        | some p =>
            by_cases ht : truthy p
            · simp only [ht, if_true]
              have hne2 : strUpper s ≠ strUpper s2 := by
                intro he
                apply hnd.1
                rw [he]
                exact List.mem_map.mpr ⟨s2, hs2, rfl⟩
              rw [dlookup_dset_ne _ _ _ _ hne2]
              exact hacc s2 (List.mem_cons_of_mem _ hs2)
            · simp only [ht, if_false]
              exact hacc s2 (List.mem_cons_of_mem _ hs2)

/-- C7 (amended): `get_multiple_prices` calls the single-symbol accessor
on each symbol in order; a symbol (with distinct upper-cased keys) is
omitted from the result exactly when the accessor resolves no price *or*
resolves a falsy (zero) price, and otherwise maps (under its upper-cased
key) to the accessor's price; keys not among the inputs never appear. -/
theorem claim_C7_multiple_prices (cache : Assoc (Assoc PyVal))
    (fetch : String → Option (List (Assoc PyVal))) (symbols : List String)
    (hnd : (symbols.map strUpper).Nodup) :
    (∀ sym ∈ symbols,
      dlookup (get_multiple_prices cache fetch symbols) (strUpper sym) =
        match get_price cache sym (fetch sym) with
        | some p => if truthy p then some p else none
        | none => none) ∧
    (∀ key, key ∉ symbols.map strUpper →
      dlookup (get_multiple_prices cache fetch symbols) key = none) := by
  constructor
  · intro sym hmem
    unfold get_multiple_prices
    exact gmp_foldl_mem cache fetch symbols [] hnd (fun _ _ => rfl) sym hmem
  · intro key hk
    unfold get_multiple_prices
    rw [gmp_foldl_notmem cache fetch symbols [] key hk]
    rfl

theorem claim_C7_multiple_prices_witness :
    dlookup (get_multiple_prices [("AAA", [("s", .pstr "AAA"), ("c", .pnum 2)])]
        (fun _ => none) ["aaa", "BBB"]) (strUpper "aaa") = some (.pnum 2) ∧
    dlookup (get_multiple_prices [("AAA", [("s", .pstr "AAA"), ("c", .pnum 2)])]
        (fun _ => none) ["aaa", "BBB"]) "ZZZ" = none := by
  constructor
  · exact ((claim_C7_multiple_prices [("AAA", [("s", .pstr "AAA"), ("c", .pnum 2)])]
      (fun _ => none) ["aaa", "BBB"] (by decide)).1 "aaa" (by decide)).trans rfl
  · exact (claim_C7_multiple_prices [("AAA", [("s", .pstr "AAA"), ("c", .pnum 2)])]
      (fun _ => none) ["aaa", "BBB"] (by decide)).2 "ZZZ" (by decide)

/-! ### C9: the lifecycle guard spawns at most one loop -/

theorem lt_of_pcs_lookup (l : List GuardPC) (i : Nat) (pc : GuardPC)
    (h : l[i]? = some pc) : i < l.length := by
  rw [List.getElem?_eq_some] at h
  exact h.1

theorem pcs_set_lookup (l : List GuardPC) (i j : Nat) (a : GuardPC)
    (hi : i < l.length) :
    (l.set i a)[j]? = if j = i then some a else l[j]? := by
  by_cases h : j = i
  · subst h
    simp [List.getElem?_set_self hi]
  · rw [if_neg h]
    exact List.getElem?_set_ne (fun he => h he.symm)

theorem lockInv_unique (s : GuardState) (hL : GuardLockInv s) (i j : Nat)
    (pci pcj : GuardPC) (hi : s.pcs[i]? = some pci) (hj : s.pcs[j]? = some pcj)
    (hli : lockedPC pci = true) (hlj : lockedPC pcj = true) : i = j := by
  have h1 := hL i pci hi hli
  have h2 := hL j pcj hj hlj
  rw [h1] at h2
  exact Option.some_inj.mp h2

theorem guardInit_lookup (n i : Nat) (pc : GuardPC)
    (h : (guardInit n).pcs[i]? = some pc) : pc = GuardPC.start := by
  simp only [guardInit] at h
  rw [List.getElem?_eq_some] at h
  obtain ⟨hi, he⟩ := h
  rw [List.getElem_replicate] at he
  exact he.symm

theorem guardInv_init (n : Nat) : GuardInv (guardInit n) := by
  constructor
  · intro i pc h hlk
    have hpc := guardInit_lookup n i pc h
    subst hpc
    simp [lockedPC] at hlk
  · left
    refine ⟨rfl, rfl, ?_⟩
    intro i pc h
    have hpc := guardInit_lookup n i pc h
    subst hpc
    decide

theorem guardInv_step (s s' : GuardState) (h : GuardInv s)
    (hs : GuardStep s s') : GuardInv s' := by
  obtain ⟨hL, hP⟩ := h
  cases hs with
  | check_true i hpc hf =>
      have hlen := lt_of_pcs_lookup _ _ _ hpc
      constructor
      · intro j pc hj hlk
        rw [pcs_set_lookup _ _ _ _ hlen] at hj
        by_cases hij : j = i
        · rw [if_pos hij] at hj
          have : GuardPC.done = pc := Option.some_inj.mp hj
          subst this
          simp [lockedPC] at hlk
        · rw [if_neg hij] at hj
          exact hL j pc hj hlk
      · rcases hP with ⟨hA, _, _⟩ | ⟨hB, _, _⟩ | ⟨hCf, hCs, hCn⟩
        · rw [hf] at hA; cases hA
        · rw [hf] at hB; cases hB
        · right; right
          refine ⟨hCf, hCs, ?_⟩
          intro j pc hj
          rw [pcs_set_lookup _ _ _ _ hlen] at hj
          by_cases hij : j = i
          · rw [if_pos hij] at hj
            have : GuardPC.done = pc := Option.some_inj.mp hj
            subst this
            exact ⟨by decide, by decide⟩
          · rw [if_neg hij] at hj
            exact hCn j pc hj
  | check_false i hpc hf =>
      have hlen := lt_of_pcs_lookup _ _ _ hpc
      constructor
      · intro j pc hj hlk
        rw [pcs_set_lookup _ _ _ _ hlen] at hj
        by_cases hij : j = i
        · rw [if_pos hij] at hj
          have : GuardPC.acq = pc := Option.some_inj.mp hj
          subst this
          simp [lockedPC] at hlk
        · rw [if_neg hij] at hj
          exact hL j pc hj hlk
      · rcases hP with ⟨hA, hAs, hAn⟩ | ⟨hB, hBs, k, hk⟩ | ⟨hCf, _, _⟩
        · left
          refine ⟨hA, hAs, ?_⟩
          intro j pc hj
          rw [pcs_set_lookup _ _ _ _ hlen] at hj
          by_cases hij : j = i
          · rw [if_pos hij] at hj
            have : GuardPC.acq = pc := Option.some_inj.mp hj
            subst this
            decide
          · rw [if_neg hij] at hj
            exact hAn j pc hj
        · right; left
          refine ⟨hB, hBs, ?_⟩
          have hki : k ≠ i := by
            intro he
            subst he
            rw [hpc] at hk
            cases Option.some_inj.mp hk
          refine ⟨k, ?_⟩
          rw [pcs_set_lookup _ _ _ _ hlen, if_neg hki]
          exact hk
        · rw [hf] at hCf; cases hCf
  | acquire i hpc hl =>
      have hlen := lt_of_pcs_lookup _ _ _ hpc
      constructor
      · intro j pc hj hlk
        rw [pcs_set_lookup _ _ _ _ hlen] at hj
        by_cases hij : j = i
        · subst hij
          rfl
        · rw [if_neg hij] at hj
          have := hL j pc hj hlk
          rw [hl] at this
          cases this
      · rcases hP with ⟨hA, hAs, hAn⟩ | ⟨hB, hBs, k, hk⟩ | ⟨hCf, hCs, hCn⟩
        · left
          refine ⟨hA, hAs, ?_⟩
          intro j pc hj
          rw [pcs_set_lookup _ _ _ _ hlen] at hj
          by_cases hij : j = i
          · rw [if_pos hij] at hj
            have : GuardPC.recheck = pc := Option.some_inj.mp hj
            subst this
            decide
          · rw [if_neg hij] at hj
            exact hAn j pc hj
        · exfalso
          have := hL k GuardPC.setFlag hk (by decide)
          rw [hl] at this
          cases this
        · right; right
          refine ⟨hCf, hCs, ?_⟩
          intro j pc hj
          rw [pcs_set_lookup _ _ _ _ hlen] at hj
          by_cases hij : j = i
          · rw [if_pos hij] at hj
            have : GuardPC.recheck = pc := Option.some_inj.mp hj
            subst this
            exact ⟨by decide, by decide⟩
          · rw [if_neg hij] at hj
            exact hCn j pc hj
  | recheck_true i hpc hf =>
      have hlen := lt_of_pcs_lookup _ _ _ hpc
      constructor
      · intro j pc hj hlk
        rw [pcs_set_lookup _ _ _ _ hlen] at hj
        by_cases hij : j = i
        · subst hij
          exact hL _ _ hpc (by decide)
        · rw [if_neg hij] at hj
          exact hL j pc hj hlk
      · rcases hP with ⟨hA, _, _⟩ | ⟨hB, _, _⟩ | ⟨hCf, hCs, hCn⟩
        · rw [hf] at hA; cases hA
        · rw [hf] at hB; cases hB
        · right; right
          refine ⟨hCf, hCs, ?_⟩
          intro j pc hj
          rw [pcs_set_lookup _ _ _ _ hlen] at hj
          by_cases hij : j = i
          · rw [if_pos hij] at hj
            have : GuardPC.rel = pc := Option.some_inj.mp hj
            subst this
            exact ⟨by decide, by decide⟩
          · rw [if_neg hij] at hj
            exact hCn j pc hj
  | recheck_false i hpc hf =>
      have hlen := lt_of_pcs_lookup _ _ _ hpc
      constructor
      · intro j pc hj hlk
        rw [pcs_set_lookup _ _ _ _ hlen] at hj
        by_cases hij : j = i
        · subst hij
          exact hL _ _ hpc (by decide)
        · rw [if_neg hij] at hj
          exact hL j pc hj hlk
      · rcases hP with ⟨hA, hAs, hAn⟩ | ⟨hB, hBs, k, hk⟩ | ⟨hCf, _, _⟩
        · left
          refine ⟨hA, hAs, ?_⟩
          intro j pc hj
          rw [pcs_set_lookup _ _ _ _ hlen] at hj
          by_cases hij : j = i
          · rw [if_pos hij] at hj
            have : GuardPC.spawnStep = pc := Option.some_inj.mp hj
            subst this
            decide
          · rw [if_neg hij] at hj
            exact hAn j pc hj
        · exfalso
          have hki := lockInv_unique s hL k i GuardPC.setFlag GuardPC.recheck
            hk hpc (by decide) (by decide)
          subst hki
          rw [hpc] at hk
          cases Option.some_inj.mp hk
        · rw [hf] at hCf; cases hCf
  | spawn i hpc =>
      have hlen := lt_of_pcs_lookup _ _ _ hpc
      constructor
      · intro j pc hj hlk
        rw [pcs_set_lookup _ _ _ _ hlen] at hj
        by_cases hij : j = i
        · subst hij
          exact hL _ _ hpc (by decide)
        · rw [if_neg hij] at hj
          exact hL j pc hj hlk
      · rcases hP with ⟨hA, hAs, hAn⟩ | ⟨hB, hBs, k, hk⟩ | ⟨hCf, hCs, hCn⟩
        · right; left
          refine ⟨hA, by rw [hAs], ?_⟩
          refine ⟨i, ?_⟩
          rw [pcs_set_lookup _ _ _ _ hlen, if_pos rfl]
        · exfalso
          have hki := lockInv_unique s hL k i GuardPC.setFlag GuardPC.spawnStep
            hk hpc (by decide) (by decide)
          subst hki
          rw [hpc] at hk
          cases Option.some_inj.mp hk
        · exact absurd rfl (hCn i GuardPC.spawnStep hpc).1
  | set_flag i hpc =>
      have hlen := lt_of_pcs_lookup _ _ _ hpc
      constructor
      · intro j pc hj hlk
        rw [pcs_set_lookup _ _ _ _ hlen] at hj
        by_cases hij : j = i
        · subst hij
          exact hL _ _ hpc (by decide)
        · rw [if_neg hij] at hj
          exact hL j pc hj hlk
      · rcases hP with ⟨hA, hAs, hAn⟩ | ⟨hB, hBs, k, hk⟩ | ⟨hCf, hCs, hCn⟩
        · exact absurd rfl (hAn i GuardPC.setFlag hpc)
        · right; right
          refine ⟨rfl, hBs, ?_⟩
          intro j pc hj
          rw [pcs_set_lookup _ _ _ _ hlen] at hj
          by_cases hij : j = i
          · rw [if_pos hij] at hj
            have : GuardPC.rel = pc := Option.some_inj.mp hj
            subst this
            exact ⟨by decide, by decide⟩
          · rw [if_neg hij] at hj
            refine ⟨fun he => ?_, fun he => ?_⟩
            · subst he
              exact hij (lockInv_unique s hL j i GuardPC.spawnStep GuardPC.setFlag
                hj hpc (by decide) (by decide))
            · subst he
              exact hij (lockInv_unique s hL j i GuardPC.setFlag GuardPC.setFlag
                hj hpc (by decide) (by decide))
        · exact absurd rfl (hCn i GuardPC.setFlag hpc).2
  | release i hpc =>
      have hlen := lt_of_pcs_lookup _ _ _ hpc
      constructor
      · intro j pc hj hlk
        rw [pcs_set_lookup _ _ _ _ hlen] at hj
        by_cases hij : j = i
        · rw [if_pos hij] at hj
          have : GuardPC.done = pc := Option.some_inj.mp hj
          subst this
          simp [lockedPC] at hlk
        · rw [if_neg hij] at hj
          exfalso
          have := lockInv_unique s hL j i pc GuardPC.rel hj hpc hlk (by decide)
          exact hij this
      · rcases hP with ⟨hA, hAs, hAn⟩ | ⟨hB, hBs, k, hk⟩ | ⟨hCf, hCs, hCn⟩
        · left
          refine ⟨hA, hAs, ?_⟩
          intro j pc hj
          rw [pcs_set_lookup _ _ _ _ hlen] at hj
          by_cases hij : j = i
          · rw [if_pos hij] at hj
            have : GuardPC.done = pc := Option.some_inj.mp hj
            subst this
            decide
          · rw [if_neg hij] at hj
            exact hAn j pc hj
        · exfalso
          have hki := lockInv_unique s hL k i GuardPC.setFlag GuardPC.rel
            hk hpc (by decide) (by decide)
          subst hki
          rw [hpc] at hk
          cases Option.some_inj.mp hk
        · right; right
          refine ⟨hCf, hCs, ?_⟩
          intro j pc hj
          rw [pcs_set_lookup _ _ _ _ hlen] at hj
          by_cases hij : j = i
          · rw [if_pos hij] at hj
            have : GuardPC.done = pc := Option.some_inj.mp hj
            subst this
            exact ⟨by decide, by decide⟩
          · rw [if_neg hij] at hj
            exact hCn j pc hj

theorem guardInv_reachable (n : Nat) (s : GuardState)
    (h : GuardReachable (guardInit n) s) : GuardInv s := by
  induction h with
  | refl => exact guardInv_init n
  | tail hab hbc ih => exact guardInv_step _ _ ih hbc

theorem guard_flag_stable (s s' : GuardState) (hInv : GuardInv s)
    (hf : s.flag = true) (hs : GuardStep s s') :
    s'.spawns = s.spawns ∧ s'.flag = true := by
  cases hs with
  | check_true i hpc _ => exact ⟨rfl, hf⟩
  | check_false i hpc hfl => rw [hf] at hfl; cases hfl
  | acquire i hpc hl => exact ⟨rfl, hf⟩
  | recheck_true i hpc _ => exact ⟨rfl, hf⟩
  | recheck_false i hpc hfl => rw [hf] at hfl; cases hfl
  | spawn i hpc =>
      exfalso
      rcases hInv.2 with ⟨hA, _, _⟩ | ⟨hB, _, _⟩ | ⟨_, _, hCn⟩
      · rw [hf] at hA; cases hA
      · rw [hf] at hB; cases hB
      · exact (hCn i GuardPC.spawnStep hpc).1 rfl
  | set_flag i hpc => exact ⟨rfl, rfl⟩
  | release i hpc => exact ⟨rfl, hf⟩

/-- C9: from any number `n` of caller threads racing through
`ensure_started`'s double-checked locking, every reachable state has
launched at most one background loop; and once the started flag is
observed set, no further execution ever spawns another. -/
theorem claim_C9_at_most_one_start (n : Nat) (s : GuardState)
    (hs : GuardReachable (guardInit n) s) :
    s.spawns ≤ 1 ∧
    (s.flag = true → ∀ s', GuardReachable s s' → s'.spawns = s.spawns) := by
  constructor
  · have hInv := guardInv_reachable n s hs
    rcases hInv.2 with ⟨_, h0, _⟩ | ⟨_, h1, _⟩ | ⟨_, h1, _⟩ <;> omega
  · intro hf s' hs'
    have main : ∀ s2 : GuardState, GuardReachable s s2 →
        s2.spawns = s.spawns ∧ s2.flag = true ∧ GuardInv s2 := by
      intro s2 hs2
      induction hs2 with
      | refl => exact ⟨rfl, hf, guardInv_reachable n s hs⟩
      | tail hab hbc ih =>
          obtain ⟨hsp, hfl, hinv⟩ := ih
          have hstep := guard_flag_stable _ _ hinv hfl hbc
          exact ⟨hstep.1.trans hsp, hstep.2, guardInv_step _ _ hinv hbc⟩
    exact (main s' hs').1

theorem claim_C9_at_most_one_start_witness :
    ({ flag := true, lock := none, spawns := 1,
       pcs := [GuardPC.done, GuardPC.start] } : GuardState).spawns ≤ 1 := by
  have st1 : GuardStep (guardInit 2)
      ⟨false, none, 0, [GuardPC.acq, GuardPC.start]⟩ :=
    GuardStep.check_false (guardInit 2) 0 rfl rfl
  have st2 : GuardStep ⟨false, none, 0, [GuardPC.acq, GuardPC.start]⟩
      ⟨false, some 0, 0, [GuardPC.recheck, GuardPC.start]⟩ :=
    GuardStep.acquire _ 0 rfl rfl
  have st3 : GuardStep ⟨false, some 0, 0, [GuardPC.recheck, GuardPC.start]⟩
      ⟨false, some 0, 0, [GuardPC.spawnStep, GuardPC.start]⟩ :=
    GuardStep.recheck_false _ 0 rfl rfl
  have st4 : GuardStep ⟨false, some 0, 0, [GuardPC.spawnStep, GuardPC.start]⟩
      ⟨false, some 0, 1, [GuardPC.setFlag, GuardPC.start]⟩ :=
    GuardStep.spawn _ 0 rfl
  have st5 : GuardStep ⟨false, some 0, 1, [GuardPC.setFlag, GuardPC.start]⟩
      ⟨true, some 0, 1, [GuardPC.rel, GuardPC.start]⟩ :=
    GuardStep.set_flag _ 0 rfl
  have st6 : GuardStep ⟨true, some 0, 1, [GuardPC.rel, GuardPC.start]⟩
      ⟨true, none, 1, [GuardPC.done, GuardPC.start]⟩ :=
    GuardStep.release _ 0 rfl
  have chain : GuardReachable (guardInit 2)
      ⟨true, none, 1, [GuardPC.done, GuardPC.start]⟩ :=
    Relation.ReflTransGen.tail (Relation.ReflTransGen.tail
      (Relation.ReflTransGen.tail (Relation.ReflTransGen.tail
        (Relation.ReflTransGen.tail (Relation.ReflTransGen.single st1)
          st2) st3) st4) st5) st6
  exact (claim_C9_at_most_one_start 2 _ chain).1

end VCI
